import Mathlib

/-!
Verification of the diode writer of `pkg/diode` (the non-blocking,
lock-free io.Writer wrapper) against its specification.  The Writer
façade (`NewWriter`, `Writer.Write`, `Writer.Close`, `Writer.poll`) is
embedded from the source; the many-to-one ring diode and the two
consumption strategies live in `pkg/diode/internal`, whose source is not
in the tree, and are modelled from the spec where a claim needs them.
Bytes are `Nat`, errors are `Option String` (`none` is Go's `nil`).
-/

namespace ZapDiode

/-- A Go byte slice: the bytes it holds and the capacity of its backing
array.  Capacity only matters for the pool-recycling decision in the
pump loop. -/
structure Buf where
  data : List Nat
  cap : Nat
deriving DecidableEq

/-- Go append of the bytes `p` onto the slice `b`: contents are
concatenated; the backing capacity is kept when the result fits and
otherwise grows to at least the new length (the exact growth factor is
runtime defined; no claim depends on it). -/
def goAppend (b : Buf) (p : List Nat) : Buf :=
  { data := b.data ++ p,
    cap := if b.data.length + p.length ≤ b.cap then b.cap
           else max (b.data.length + p.length) (2 * b.cap) }

/-- Source `bufPool.New`: a fresh empty slice of capacity 500. -/
def poolNew : Buf := { data := [], cap := 500 }

/-- Source `bufPool.Get()`: hand out a pooled buffer if one is free,
else allocate via `New`.  `sync.Pool` hands out an arbitrary pooled
entry; the model hands out the head of the free list. -/
def poolGet : List Buf → Buf × List Buf
  | [] => (poolNew, [])
  | b :: rest => (b, rest)

/-- Source `bufPool.Put(p[:0])` in `Writer.poll`: the buffer is stored
truncated to length zero, keeping its capacity. -/
def poolPut (b : Buf) (pool : List Buf) : List Buf :=
  pool ++ [{ data := [], cap := b.cap }]

/-- Pool invariant: every buffer sitting in the pool is empty.  `New`
allocates empty buffers and the pump only ever `Put`s `p[:0]`. -/
def poolInv (pool : List Buf) : Prop := ∀ b ∈ pool, b.data = []

/-- Modelled from the spec: the many-to-one ring diode of
`pkg/diode/internal` (source not in the tree).  Per the spec's data
model: fixed capacity; slots holding (sequence, payload) addressed by
`sequence mod capacity`; a shared write cursor handing out sequences; a
consumer-owned read cursor; a drop-alert callback fed the missed count
on overflow.  `alerter` gives the observable effects of one callback
invocation and `alertLog` accumulates them; `missed` records every
missed count delivered, independently of what the callback does. -/
structure Diode where
  capacity : Nat
  slots : Nat → Option (Nat × Buf)
  writeSeq : Nat
  readSeq : Nat
  alerter : Nat → List Nat
  alertLog : List Nat
  missed : List Nat

/-- Modelled from the spec: `publish` — claim sequence `writeSeq`, store
the payload with that sequence at slot `writeSeq mod capacity`, advance
the write cursor.  Named `Set` after the call site in `Writer.Write`. -/
def Diode.Set (d : Diode) (b : Buf) : Diode :=
  { d with
    slots := Function.update d.slots (d.writeSeq % d.capacity) (some (d.writeSeq, b)),
    writeSeq := d.writeSeq + 1 }

/-- Modelled from the spec: `next(expected_seq)` with its three outcomes —
an exact sequence match returns the item and advances the read cursor by
one; a newer sequence is an overflow that invokes the drop alert with
`missed = found - expected` and resumes reading after the newer
sequence; an empty or stale slot means no data is ready yet. -/
def Diode.TryNext (d : Diode) : Option (Buf × Diode) :=
  match d.slots (d.readSeq % d.capacity) with
  | none => none
  | some (s, b) =>
    if s = d.readSeq then
      some (b, { d with readSeq := d.readSeq + 1 })
    else if d.readSeq < s then
      some (b, { d with readSeq := s + 1,
                        alertLog := d.alertLog ++ d.alerter (s - d.readSeq),
                        missed := d.missed ++ [s - d.readSeq] })
    else none

/-- The consumption strategy chosen at construction: a poller carrying
its interval (nanoseconds, Go `time.Duration`), or a waiter. -/
inductive Strategy where
  | poller (interval : Int)
  | waiter
deriving DecidableEq

/-- Construction side effects of `NewWriter` the spec talks about: the
pump goroutine being spawned, and a configuration error being raised.
The source has no error path at all; the `configError` constructor
exists so that its absence is statable. -/
inductive NewEvent where
  | spawnPump
  | configError
deriving DecidableEq

/-- The writer façade together with the state it interacts with: the
wrapped sink (the records it has received, whether it implements
io.Closer, and the error its n-th Close call returns), the package
buffer pool, and the cancellation flag of the context created in
`NewWriter`. -/
structure Writer where
  strategy : Strategy
  d : Diode
  cancelled : Bool
  pool : List Buf
  sink : List (List Nat)
  sinkHasCloser : Bool
  sinkCloseErrs : Nat → Option String
  sinkCloseCalls : Nat

/-- Source `NewWriter`: substitute a no-op alerter when `f` is nil,
build a fresh many-to-one diode of the given size over the ambient pool
and the given sink, pick a poller when `pollInterval > 0` and a waiter
otherwise, and spawn the pump goroutine.  There is no capacity
validation and no error return; the event list records what happened.
(A negative size would panic Go's `make` inside the internal package;
the model is meaningful for sizes ≥ 0.) -/
def NewWriter (pool : List Buf) (sinkHasCloser : Bool)
    (sinkCloseErrs : Nat → Option String) (size : Int) (pollInterval : Int)
    (f : Option (Nat → List Nat)) : Writer × List NewEvent :=
  let alerter := match f with
    | none => fun _ => []
    | some g => g
  ({ strategy := if 0 < pollInterval then .poller pollInterval else .waiter,
     d := { capacity := size.toNat, slots := fun _ => none, writeSeq := 0,
            readSeq := 0, alerter := alerter, alertLog := [], missed := [] },
     cancelled := false, pool := pool, sink := [],
     sinkHasCloser := sinkHasCloser, sinkCloseErrs := sinkCloseErrs,
     sinkCloseCalls := 0 },
   [.spawnPump])

/-- Source `Writer.Write`: `p = append(bufPool.Get().([]byte), p...)`,
then `Set` the copy into the diode and `return len(p), nil` — the
returned length is that of the copy. -/
def Writer.Write (w : Writer) (p : List Nat) : (Nat × Option String) × Writer :=
  let g := poolGet w.pool
  let q := goAppend g.1 p
  ((q.data.length, none), { w with pool := g.2, d := w.d.Set q })

/-- The externally visible actions of `Writer.Close`, in order. -/
inductive CloseEvent where
  | cancel
  | waitPumpExit
  | closeSink
deriving DecidableEq

/-- Source `Writer.Close`: cancel the diode context, wait on the `done`
channel for the pump goroutine to exit (once the pump has exited the
channel stays closed, so every later wait returns at once), then, when
the sink implements io.Closer, call the sink's Close — again on every
repeated call — and return its error; otherwise return nil.  The trace
records the order of these actions. -/
def Writer.Close (w : Writer) : (Option String × List CloseEvent) × Writer :=
  let w1 : Writer := { w with cancelled := true }
  if w1.sinkHasCloser then
    ((w1.sinkCloseErrs w1.sinkCloseCalls, [.cancel, .waitPumpExit, .closeSink]),
     { w1 with sinkCloseCalls := w1.sinkCloseCalls + 1 })
  else
    ((none, [.cancel, .waitPumpExit]), w1)

/-- Outcome of one call to the active strategy's Next. -/
inductive NextResult where
  | item (b : Buf) (d : Diode)
  | terminal
  | notReady

/-- Modelled from the spec: one probe by the active strategy (poller or
waiter).  Both strategies return ready data when there is some, a
terminal nil once cancelled and nothing is ready, and otherwise keep
waiting — `notReady` stands for the sleep or park between probes. -/
def strategyNext (cancelled : Bool) (d : Diode) : NextResult :=
  match d.TryNext with
  | some (b, d1) => .item b d1
  | none => if cancelled then .terminal else .notReady

/-- What one iteration of `Writer.poll` did. -/
inductive PollOutcome where
  | exited
  | wrote
  | waiting
deriving DecidableEq

/-- Source `Writer.poll`, one iteration: fetch the next record (on nil,
exit the loop, which closes `done`); write it to the sink with `_, _ =`
discarding the sink's returned count and error; then recycle the buffer
into the pool exactly when its capacity is at most `1 << 16` (64 KiB).
`sinkRet` is whatever count and error the sink returned for this
write. -/
def pollStep (w : Writer) (sinkRet : Nat × Option String) : PollOutcome × Writer :=
  match strategyNext w.cancelled w.d with
  | .terminal => (.exited, w)
  | .notReady => (.waiting, w)
  | .item b d1 =>
    let w1 : Writer := { w with d := d1, sink := w.sink ++ [b.data] }
    if b.cap ≤ 65536 then (.wrote, { w1 with pool := poolPut b w1.pool })
    else (.wrote, w1)

/-- Run `n` pump iterations.  The source discards the sink's responses,
so a fixed response is passed (this loses nothing: `pollStep` is proved
independent of it). -/
def pumps : Nat → Writer → Writer
  | 0, w => w
  | n + 1, w => pumps n (pollStep w (0, none)).2

/-- One step of an interleaving: a producer write or a pump iteration. -/
inductive Act where
  | wr (p : List Nat)
  | pu

/-- Run an interleaving of producer writes and pump iterations. -/
def exec : List Act → Writer → Writer
  | [], w => w
  | .wr p :: rest, w => exec rest (w.Write p).2
  | .pu :: rest, w => exec rest (pollStep w (0, none)).2

/-- The writes a schedule submits, in submission order. -/
def writesOf : List Act → List (List Nat)
  | [] => []
  | .wr p :: rest => p :: writesOf rest
  | .pu :: rest => writesOf rest

/-- Whenever every pooled buffer is empty (which `New` and `Put`
guarantee), the copy made by `Write` has exactly the input's bytes, so
the returned pair is `(len p, nil)`. -/
lemma Write_fst (w : Writer) (p : List Nat) (h : poolInv w.pool) :
    (w.Write p).1 = (p.length, none) := by
  cases hp : w.pool with
  | nil => simp [Writer.Write, goAppend, hp, poolGet, poolNew]
  | cons b rest =>
    have hb : b.data = [] := h b (by rw [hp]; exact List.mem_cons_self b rest)
    simp [Writer.Write, goAppend, hp, poolGet, hb]

/-- Closing does not touch the buffer pool. -/
lemma Close_pool (w : Writer) : ((w.Close).2).pool = w.pool := by
  cases hc : w.sinkHasCloser <;> simp [Writer.Close, hc]

/-- C1: for every byte slice `p` and every writer state whose pool holds
only empty buffers (which construction, `Write` and the pump maintain),
`Writer.Write p` returns `(len p, nil)` — independent of the sink, of
diode fullness and of drop activity. -/
theorem write_returns_len_nil (w : Writer) (p : List Nat) (h : poolInv w.pool) :
    (w.Write p).1 = (p.length, none) :=
  Write_fst w p h

/-- A writer over a closerless sink, fresh from `NewWriter`. -/
def sampleWriter : Writer := (NewWriter [] false (fun _ => none) 4 0 none).1

theorem write_returns_len_nil_witness :
    poolInv sampleWriter.pool ∧ (sampleWriter.Write [7, 8]).1 = (2, none) := by
  have h : poolInv sampleWriter.pool := by
    intro b hb
    simp [sampleWriter, NewWriter] at hb
  exact ⟨h, write_returns_len_nil sampleWriter [7, 8] h⟩

/-- C10: a `Write` issued after `Close` has completed still returns
`(len p, nil)`: the close lifecycle never makes a later `Write` fail. -/
theorem write_after_close_ok (w : Writer) (p : List Nat) (h : poolInv w.pool) :
    (((w.Close).2).Write p).1 = (p.length, none) :=
  Write_fst _ p (by rw [Close_pool]; exact h)

theorem write_after_close_ok_witness :
    poolInv sampleWriter.pool ∧ (((sampleWriter.Close).2).Write [9]).1 = (1, none) := by
  have h : poolInv sampleWriter.pool := by
    intro b hb
    simp [sampleWriter, NewWriter] at hb
  exact ⟨h, write_after_close_ok sampleWriter [9] h⟩

/-- C5: `Close` first signals cancellation, then waits for the pump to
exit, and only then closes the sink when the sink has a close operation,
returning that close's error; with no close operation it returns nil. -/
theorem close_order_and_error (w : Writer) :
    (w.Close).1.2 = [CloseEvent.cancel, CloseEvent.waitPumpExit]
        ++ (if w.sinkHasCloser then [CloseEvent.closeSink] else [])
    ∧ (w.Close).1.1 = (if w.sinkHasCloser then w.sinkCloseErrs w.sinkCloseCalls else none) := by
  cases hc : w.sinkHasCloser <;> simp [Writer.Close, hc]

/-- A writer wrapping a sink whose Close succeeds once and afterwards
reports the file already closed, as an os.File does. -/
def fileWriter : Writer :=
  (NewWriter [] true (fun n => if n = 0 then none else some "file already closed") 4 0 none).1

/-- C4 counterexample: the first `Close` of `fileWriter` returns nil,
but the second `Close` is not a no-op success — it invokes the sink's
Close again and returns its non-nil error. -/
theorem close_not_idempotent_cex :
    (fileWriter.Close).1.1 = none
    ∧ ((fileWriter.Close).2.Close).1.1 = some "file already closed" := by
  constructor <;> rfl

/-- C4 amended: `Close` may be repeated without blocking; a second call
after a completed first is a no-op returning nil when the sink has no
close operation, and otherwise invokes the sink's Close again and
returns that call's error, which need not be nil. -/
theorem close_repeat (w : Writer) :
    ((w.Close).2.Close).1.1
      = (if w.sinkHasCloser then w.sinkCloseErrs (w.sinkCloseCalls + 1) else none)
    ∧ ((w.Close).2.Close).2
      = { w with cancelled := true,
                 sinkCloseCalls := w.sinkCloseCalls + (if w.sinkHasCloser then 2 else 0) } := by
  cases hc : w.sinkHasCloser <;> simp [Writer.Close, hc]

/-- C3 counterexample: at capacity 0 — a non-positive capacity —
`NewWriter` does not fail fast: it raises no configuration error and
spawns the pump goroutine anyway. -/
theorem newWriter_no_validation_cex :
    (NewWriter [] false (fun _ => none) 0 0 none).2 = [NewEvent.spawnPump]
    ∧ NewEvent.configError ∉ (NewWriter [] false (fun _ => none) 0 0 none).2 := by
  exact ⟨rfl, by decide⟩

/-- C3 amended: construction never fails for any capacity: `NewWriter`
has no error result and performs no capacity validation; for every
capacity, non-positive ones included, it raises no configuration error
and unconditionally spawns the pump goroutine. -/
theorem newWriter_always_constructs (pool : List Buf) (hc : Bool)
    (ce : Nat → Option String) (size pollInterval : Int)
    (f : Option (Nat → List Nat)) :
    (NewWriter pool hc ce size pollInterval f).2 = [NewEvent.spawnPump] := by
  cases f <;> rfl

/-- C7: the strategy is selected solely from the interval: strictly
positive intervals yield a poller carrying that interval, all others a
waiter. -/
theorem strategy_selection (pool : List Buf) (hc : Bool) (ce : Nat → Option String)
    (size pollInterval : Int) (f : Option (Nat → List Nat)) :
    (0 < pollInterval →
      (NewWriter pool hc ce size pollInterval f).1.strategy = .poller pollInterval)
    ∧ (pollInterval ≤ 0 →
      (NewWriter pool hc ce size pollInterval f).1.strategy = .waiter) := by
  constructor
  · intro h
    simp [NewWriter, if_pos h]
  · intro h
    simp [NewWriter, if_neg (not_lt.mpr h)]

theorem strategy_selection_witness :
    (NewWriter [] false (fun _ => none) 4 1 none).1.strategy = Strategy.poller 1
    ∧ (NewWriter [] false (fun _ => none) 4 0 none).1.strategy = Strategy.waiter :=
  ⟨(strategy_selection [] false (fun _ => none) 4 1 none).1 (by decide),
   (strategy_selection [] false (fun _ => none) 4 0 none).2 (by decide)⟩

/-- C6: the pump's behaviour is independent of the count and error the
sink returns — the same successor state and outcome for any response, so
a sink failure is never retried and never propagated — and the loop
exits exactly when the strategy reports terminal, never because of a
sink error. -/
theorem sink_error_discarded (w : Writer) (r1 r2 : Nat × Option String) :
    pollStep w r1 = pollStep w r2
    ∧ ((pollStep w r1).1 = PollOutcome.exited
        ↔ strategyNext w.cancelled w.d = NextResult.terminal) := by
  refine ⟨rfl, ?_⟩
  cases h : strategyNext w.cancelled w.d with
  | item b d1 =>
    simp only [pollStep, h]
    split <;> simp
  | terminal => simp [pollStep, h]
  | notReady => simp [pollStep, h]

/-- C8: after the pump writes a drained record to the sink, its buffer
is returned to the pool exactly when its capacity is at most
`1 << 16 = 65536` bytes; larger buffers are never recycled. -/
theorem recycle_threshold (w : Writer) (r : Nat × Option String) (b : Buf) (d1 : Diode)
    (h : strategyNext w.cancelled w.d = NextResult.item b d1) :
    (pollStep w r).2.sink = w.sink ++ [b.data]
    ∧ (pollStep w r).2.pool = (if b.cap ≤ 65536 then poolPut b w.pool else w.pool) := by
  by_cases hcap : b.cap ≤ 65536
  · simp [pollStep, h, hcap]
  · simp [pollStep, h, hcap]

/-- The sample writer right after one producer write, so the pump has a
record pending. -/
def pendingWriter : Writer := (sampleWriter.Write [5]).2

theorem recycle_threshold_witness :
    strategyNext pendingWriter.cancelled pendingWriter.d
      = NextResult.item { data := [5], cap := 500 } { pendingWriter.d with readSeq := 1 }
    ∧ (pollStep pendingWriter (0, none)).2.sink = pendingWriter.sink ++ [[5]]
    ∧ (pollStep pendingWriter (0, none)).2.pool
      = (if (500 : Nat) ≤ 65536 then poolPut { data := [5], cap := 500 } pendingWriter.pool
         else pendingWriter.pool) := by
  have h : strategyNext pendingWriter.cancelled pendingWriter.d
      = NextResult.item { data := [5], cap := 500 } { pendingWriter.d with readSeq := 1 } := rfl
  have h2 := recycle_threshold pendingWriter (0, none) { data := [5], cap := 500 }
    { pendingWriter.d with readSeq := 1 } h
  exact ⟨h, h2.1, h2.2⟩

/-- C9: `NewWriter` with a nil drop-alert callback installs the no-op
alerter and still constructs the writer (spawning the pump); under the
no-op alerter, an overflow detected by `TryNext` invokes a callback with
no observable effect. -/
theorem nil_alerter_noop (pool : List Buf) (hc : Bool) (ce : Nat → Option String)
    (size pollInterval : Int) :
    ((NewWriter pool hc ce size pollInterval none).1.d.alerter = fun _ => [])
    ∧ (NewWriter pool hc ce size pollInterval none).2 = [NewEvent.spawnPump]
    ∧ ∀ (d : Diode) (b : Buf) (d1 : Diode), d.alerter = (fun _ => []) →
        d.TryNext = some (b, d1) → d1.alertLog = d.alertLog := by
  refine ⟨rfl, rfl, ?_⟩
  intro d b d1 ha h
  unfold Diode.TryNext at h
  split at h
  · exact Option.noConfusion h
  · split at h
    · rw [Option.some.injEq, Prod.mk.injEq] at h
      obtain ⟨hb, hd⟩ := h
      rw [← hd]
    · split at h
      · rw [Option.some.injEq, Prod.mk.injEq] at h
        obtain ⟨hb, hd⟩ := h
        rw [← hd]
        simp [ha]
      · exact Option.noConfusion h

/-- A diode whose reader is two records behind: slot 1 already carries
sequence 3 while the read cursor expects sequence 1, so the next probe
detects an overflow of 2 missed records. -/
def overflowDiode : Diode :=
  { capacity := 2,
    slots := fun i => if i = 1 then some (3, { data := [9], cap := 500 }) else none,
    writeSeq := 4, readSeq := 1, alerter := fun _ => [], alertLog := [], missed := [] }

theorem nil_alerter_noop_witness :
    (overflowDiode.alerter = fun _ => [])
    ∧ overflowDiode.TryNext
      = some ({ data := [9], cap := 500 },
              { overflowDiode with readSeq := 4, alertLog := [], missed := [2] })
    ∧ ({ overflowDiode with readSeq := 4, alertLog := [], missed := [2] } : Diode).alertLog
      = overflowDiode.alertLog := by
  refine ⟨rfl, rfl, ?_⟩
  exact (nil_alerter_noop [] false (fun _ => none) 4 0).2.2 overflowDiode
    { data := [9], cap := 500 }
    { overflowDiode with readSeq := 4, alertLog := [], missed := [2] } rfl rfl

lemma poolGet_fst_data (pool : List Buf) (h : poolInv pool) : (poolGet pool).1.data = [] := by
  cases pool with
  | nil => rfl
  | cons b rest => exact h b (List.mem_cons_self b rest)

lemma poolGet_snd_inv (pool : List Buf) (h : poolInv pool) : poolInv (poolGet pool).2 := by
  cases pool with
  | nil => exact h
  | cons b rest => exact fun x hx => h x (List.mem_cons_of_mem b hx)

lemma poolPut_inv (b : Buf) (pool : List Buf) (h : poolInv pool) : poolInv (poolPut b pool) := by
  intro x hx
  rcases List.mem_append.mp hx with h1 | h2
  · exact h x h1
  · simp at h2
    rw [h2]

/-- Invariant for the no-overflow regime of the round-trip claim: at
most `capacity` records are ever published, so record `s` sits in slot
`s` with its own sequence, nothing has been dropped, and the sink holds
exactly the first `readSeq` records in order. -/
structure Inv (inputs : List (List Nat)) (w : Writer) : Prop where
  cap_ge : inputs.length ≤ w.d.capacity
  wseq_le : w.d.writeSeq ≤ inputs.length
  rseq_le : w.d.readSeq ≤ w.d.writeSeq
  slots_lt : ∀ s, s < w.d.writeSeq →
    ∃ c, w.d.slots s = some (s, { data := inputs.getD s [], cap := c })
  slots_ge : ∀ s, w.d.writeSeq ≤ s → w.d.slots s = none
  sink_eq : w.sink = inputs.take w.d.readSeq
  pool_ok : poolInv w.pool
  missed_nil : w.d.missed = []

/-- A producer write of the next record preserves the invariant and
advances the write cursor. -/
lemma Inv_Write (inputs : List (List Nat)) (w : Writer) (p : List Nat)
    (hI : Inv inputs w) (hlt : w.d.writeSeq < inputs.length)
    (hp : inputs.getD w.d.writeSeq [] = p) :
    Inv inputs (w.Write p).2 ∧ (w.Write p).2.d.writeSeq = w.d.writeSeq + 1 := by
  have hwcap : w.d.writeSeq < w.d.capacity := lt_of_lt_of_le hlt hI.cap_ge
  have hmod : w.d.writeSeq % w.d.capacity = w.d.writeSeq := Nat.mod_eq_of_lt hwcap
  have hget : (poolGet w.pool).1.data = [] := poolGet_fst_data w.pool hI.pool_ok
  have hqdata : (goAppend (poolGet w.pool).1 p).data = p := by
    unfold goAppend
    simp [hget]
  have hdslots : (w.Write p).2.d.slots
      = Function.update w.d.slots (w.d.writeSeq % w.d.capacity)
          (some (w.d.writeSeq, goAppend (poolGet w.pool).1 p)) := rfl
  have hdw : (w.Write p).2.d.writeSeq = w.d.writeSeq + 1 := rfl
  have hdr : (w.Write p).2.d.readSeq = w.d.readSeq := rfl
  have hdc : (w.Write p).2.d.capacity = w.d.capacity := rfl
  have hdm : (w.Write p).2.d.missed = w.d.missed := rfl
  have hsink : (w.Write p).2.sink = w.sink := rfl
  have hpool2 : (w.Write p).2.pool = (poolGet w.pool).2 := rfl
  refine ⟨⟨?_, ?_, ?_, ?_, ?_, ?_, ?_, ?_⟩, hdw⟩
  · rw [hdc]
    exact hI.cap_ge
  · rw [hdw]
    exact hlt
  · rw [hdr, hdw]
    exact le_trans hI.rseq_le (Nat.le_succ _)
  · intro s hs
    rw [hdw] at hs
    rw [hdslots, hmod]
    rcases Nat.lt_succ_iff_lt_or_eq.mp hs with hlt2 | heq2
    · obtain ⟨c, hc2⟩ := hI.slots_lt s hlt2
      refine ⟨c, ?_⟩
      rw [Function.update_noteq (Nat.ne_of_lt hlt2), hc2]
    · subst heq2
      refine ⟨(goAppend (poolGet w.pool).1 p).cap, ?_⟩
      have hqd2 : (goAppend (poolGet w.pool).1 p).data = inputs.getD w.d.writeSeq [] := by
        rw [hqdata, hp]
      rw [Function.update_same, ← hqd2]
  · intro s hs2
    rw [hdw] at hs2
    rw [hdslots, hmod, Function.update_noteq (ne_of_gt hs2),
      hI.slots_ge s (Nat.le_of_lt hs2)]
  · rw [hsink, hdr]
    exact hI.sink_eq
  · rw [hpool2]
    exact poolGet_snd_inv w.pool hI.pool_ok
  · rw [hdm]
    exact hI.missed_nil

/-- One pump iteration preserves the invariant; it advances the read
cursor when a record is pending and leaves the state untouched
otherwise. -/
lemma Inv_poll (inputs : List (List Nat)) (w : Writer) (r : Nat × Option String)
    (hI : Inv inputs w) :
    Inv inputs (pollStep w r).2
    ∧ (pollStep w r).2.d.writeSeq = w.d.writeSeq
    ∧ (w.d.readSeq < w.d.writeSeq → (pollStep w r).2.d.readSeq = w.d.readSeq + 1)
    ∧ (¬ w.d.readSeq < w.d.writeSeq → (pollStep w r).2 = w) := by
  by_cases hrw : w.d.readSeq < w.d.writeSeq
  · have hrlen : w.d.readSeq < inputs.length := lt_of_lt_of_le hrw hI.wseq_le
    have hrcap : w.d.readSeq < w.d.capacity := lt_of_lt_of_le hrlen hI.cap_ge
    have hmod : w.d.readSeq % w.d.capacity = w.d.readSeq := Nat.mod_eq_of_lt hrcap
    obtain ⟨c, hs⟩ := hI.slots_lt w.d.readSeq hrw
    have htry : w.d.TryNext
        = some ({ data := inputs.getD w.d.readSeq [], cap := c },
                { w.d with readSeq := w.d.readSeq + 1 }) := by
      unfold Diode.TryNext
      rw [hmod, hs]
      simp
    have hnext : strategyNext w.cancelled w.d
        = NextResult.item { data := inputs.getD w.d.readSeq [], cap := c }
            { w.d with readSeq := w.d.readSeq + 1 } := by
      unfold strategyNext
      rw [htry]
    have hsink : w.sink ++ [inputs.getD w.d.readSeq []] = inputs.take (w.d.readSeq + 1) := by
      rw [hI.sink_eq, List.take_succ]
      simp [List.getElem?_eq_getElem hrlen]
    by_cases hcap : c ≤ 65536
    · have hstep : (pollStep w r).2
          = { w with d := { w.d with readSeq := w.d.readSeq + 1 },
                     sink := w.sink ++ [inputs.getD w.d.readSeq []],
                     pool := poolPut { data := inputs.getD w.d.readSeq [], cap := c } w.pool } := by
        simp [pollStep, hnext, hcap]
      rw [hstep]
      exact ⟨⟨hI.cap_ge, hI.wseq_le, hrw, hI.slots_lt, hI.slots_ge, hsink,
          poolPut_inv _ _ hI.pool_ok, hI.missed_nil⟩, rfl, fun _ => rfl,
        fun h => absurd hrw h⟩
    · have hstep : (pollStep w r).2
          = { w with d := { w.d with readSeq := w.d.readSeq + 1 },
                     sink := w.sink ++ [inputs.getD w.d.readSeq []] } := by
        simp [pollStep, hnext, hcap]
      rw [hstep]
      exact ⟨⟨hI.cap_ge, hI.wseq_le, hrw, hI.slots_lt, hI.slots_ge, hsink,
          hI.pool_ok, hI.missed_nil⟩, rfl, fun _ => rfl, fun h => absurd hrw h⟩
  · have hre : w.d.writeSeq ≤ w.d.readSeq := le_of_not_lt hrw
    have htry : w.d.TryNext = none := by
      unfold Diode.TryNext
      rcases Nat.lt_or_ge w.d.readSeq w.d.capacity with hlt2 | hge2
      · rw [Nat.mod_eq_of_lt hlt2, hI.slots_ge w.d.readSeq hre]
      · have hwl := hI.wseq_le
        have hcg := hI.cap_ge
        have hrl := hI.rseq_le
        have h1 : w.d.readSeq = w.d.capacity := by omega
        rcases Nat.eq_zero_or_pos w.d.capacity with hc0 | hcpos
        · rw [hc0, Nat.mod_zero, hI.slots_ge w.d.readSeq hre]
        · rw [h1, Nat.mod_self]
          have hw0 : 0 < w.d.writeSeq := by omega
          obtain ⟨c, hs⟩ := hI.slots_lt 0 hw0
          rw [hs]
          have hne : ¬ (0 = w.d.capacity) := by omega
          have hnl : ¬ (w.d.capacity < 0) := Nat.not_lt_zero _
          simp [hne, hnl]
    have hstep : (pollStep w r).2 = w := by
      unfold pollStep strategyNext
      rw [htry]
      cases w.cancelled <;> rfl
    refine ⟨by rw [hstep]; exact hI, by rw [hstep], fun h => absurd h hrw, fun _ => hstep⟩

/-- Running any interleaving whose writes are exactly the records not
yet published keeps the invariant and finishes with every record
published. -/
lemma exec_inv (sched : List Act) : ∀ (inputs : List (List Nat)) (w : Writer),
    Inv inputs w → writesOf sched = inputs.drop w.d.writeSeq →
    Inv inputs (exec sched w) ∧ (exec sched w).d.writeSeq = inputs.length := by
  induction sched with
  | nil =>
    intro inputs w hI hdrop
    have hwl := hI.wseq_le
    have hlen : inputs.length ≤ w.d.writeSeq := by
      have hl := congrArg List.length hdrop
      simp only [writesOf, List.length_nil, List.length_drop] at hl
      omega
    exact ⟨hI, le_antisymm hwl hlen⟩
  | cons a rest ih =>
    intro inputs w hI hdrop
    cases a with
    | pu =>
      obtain ⟨hI2, hw2, _, _⟩ := Inv_poll inputs w (0, none) hI
      have hdrop2 : writesOf rest = inputs.drop (pollStep w (0, none)).2.d.writeSeq := by
        rw [hw2]
        exact hdrop
      exact ih inputs (pollStep w (0, none)).2 hI2 hdrop2
    | wr p =>
      have hlt : w.d.writeSeq < inputs.length := by
        by_contra hge
        push_neg at hge
        rw [List.drop_eq_nil_of_le hge] at hdrop
        exact List.noConfusion hdrop
      rw [List.drop_eq_getElem_cons hlt] at hdrop
      have hp : inputs.getD w.d.writeSeq [] = p := by
        have h0 : p = inputs[w.d.writeSeq] := (List.cons.injEq _ _ _ _ ▸ hdrop).1
        rw [h0]
        simp [List.getElem?_eq_getElem hlt]
      have hrest : writesOf rest = inputs.drop (w.d.writeSeq + 1) :=
        (List.cons.injEq _ _ _ _ ▸ hdrop).2
      obtain ⟨hI2, hw2⟩ := Inv_Write inputs w p hI hlt hp
      have hdrop2 : writesOf rest = inputs.drop (w.Write p).2.d.writeSeq := by
        rw [hw2]
        exact hrest
      exact ih inputs (w.Write p).2 hI2 hdrop2

/-- Once every record is published, enough pump iterations drain the
diode completely. -/
lemma pumps_inv (n : Nat) : ∀ (inputs : List (List Nat)) (w : Writer),
    Inv inputs w → w.d.writeSeq = inputs.length →
    inputs.length ≤ w.d.readSeq + n →
    Inv inputs (pumps n w) ∧ (pumps n w).d.readSeq = inputs.length := by
  induction n with
  | zero =>
    intro inputs w hI hw hle
    have hrl := hI.rseq_le
    have : w.d.readSeq = inputs.length := by omega
    exact ⟨hI, this⟩
  | succ n ih =>
    intro inputs w hI hw hle
    obtain ⟨hI2, hw2, hprog, hid⟩ := Inv_poll inputs w (0, none) hI
    by_cases hrw : w.d.readSeq < w.d.writeSeq
    · have hr2 := hprog hrw
      refine ih inputs (pollStep w (0, none)).2 hI2 (by rw [hw2]; exact hw) ?_
      rw [hr2]
      omega
    · have hrl := hI.rseq_le
      have hsame := hid hrw
      show Inv inputs (pumps n (pollStep w (0, none)).2)
        ∧ (pumps n (pollStep w (0, none)).2).d.readSeq = inputs.length
      rw [hsame]
      exact ih inputs w hI hw (by omega)

/-- C2: for any interleaving of K producer writes (in submission order)
with pump iterations, on a writer built with capacity at least K and the
no-op drop callback, draining afterwards leaves the sink with exactly
the K submitted records, byte-identical and in submission order, and no
record was ever reported dropped. -/
theorem roundtrip_in_order (inputs : List (List Nat)) (sched : List Act)
    (pool : List Buf) (hc : Bool) (ce : Nat → Option String) (size pollInterval : Int)
    (hpool : poolInv pool)
    (hsched : writesOf sched = inputs)
    (hcap : inputs.length ≤ size.toNat) :
    (pumps inputs.length
        (exec sched (NewWriter pool hc ce size pollInterval none).1)).sink = inputs
    ∧ (pumps inputs.length
        (exec sched (NewWriter pool hc ce size pollInterval none).1)).d.missed = [] := by
  have hI0 : Inv inputs (NewWriter pool hc ce size pollInterval none).1 := by
    refine ⟨?_, ?_, ?_, ?_, ?_, ?_, ?_, ?_⟩ <;> simp [NewWriter]
    · exact hcap
    · exact hpool
  obtain ⟨hI1, hw1⟩ := exec_inv sched inputs (NewWriter pool hc ce size pollInterval none).1
    hI0 (by simpa [NewWriter] using hsched)
  obtain ⟨hI2, hr2⟩ := pumps_inv inputs.length inputs
    (exec sched (NewWriter pool hc ce size pollInterval none).1) hI1 hw1
    (Nat.le_add_left inputs.length _)
  constructor
  · rw [hI2.sink_eq, hr2, List.take_length]
  · exact hI2.missed_nil

theorem roundtrip_in_order_witness :
    writesOf [Act.wr [1], Act.pu, Act.wr [2, 3]] = [[1], [2, 3]]
    ∧ ([[1], [2, 3]] : List (List Nat)).length ≤ ((4 : Int)).toNat
    ∧ (pumps 2 (exec [Act.wr [1], Act.pu, Act.wr [2, 3]]
          (NewWriter [] false (fun _ => none) 4 0 none).1)).sink = [[1], [2, 3]] := by
  refine ⟨rfl, by decide, ?_⟩
  have h := roundtrip_in_order [[1], [2, 3]] [Act.wr [1], Act.pu, Act.wr [2, 3]]
    [] false (fun _ => none) 4 0 (by intro b hb; simp at hb) rfl (by decide)
  exact h.1

end ZapDiode
